import Mathlib

/-! Verification development:
# Verification of `econsa/shapley.py` (`get_shapley`)

A shallow embedding, in exact rational arithmetic, of the single estimation
routine `get_shapley` of `econsa/shapley.py`: permutation generation
(lines 88-98), the design-builder index arithmetic and column un-permutation
(lines 101-125), and the two-pass effect estimator (lines 131-181).

Machine floating point is modelled by exact rational arithmetic (`ℚ`), with
`Real.sqrt` over `ℝ` for the one square root; `numpy` reductions (`np.mean`,
`np.var`) become sums over lists, with the Lean convention `x / 0 = 0`
standing in for the division-by-zero cases.
-/

namespace Econsa

/-! Section: numpy reductions -/

/-- `np.mean` of a 1-D array: sum divided by length. -/
def npMean (xs : List ℚ) : ℚ := xs.sum / xs.length

/-- `np.var` with the default `ddof = 0` (line 137): population variance,
mean squared deviation with denominator `len(xs)`. -/
def npVar (xs : List ℚ) : ℚ :=
  (xs.map (fun x => (x - npMean xs) ^ 2)).sum / xs.length

/-- `np.var(xs, ddof = 1)` (line 157): Bessel-corrected sample variance,
denominator `len(xs) - 1` (as a float, hence real subtraction). -/
def npVarDdof1 (xs : List ℚ) : ℚ :=
  (xs.map (fun x => (x - npMean xs) ^ 2)).sum / ((xs.length : ℚ) - 1)

/-! Section: Argument record

The integer sample-size arguments of `get_shapley`. `n_perms` is the value
in force after lines 88-98 (in exact mode the derived `len(permutations)`). -/

structure Args where
  n_perms : ℕ
  n_inputs : ℕ
  n_output : ℕ
  n_outer : ℕ
  n_inner : ℕ

/-! Section: Permutation generator (lines 88-98) -/

/-- `itertools.permutations` (line 89) enumerates, for a given input list, all
permutations by choosing each position in order of appearance and recursing on
the remainder; on a sorted input this is lexicographic order.  The first
argument is fuel, always invoked with the list's length. -/
def lexPerms : ℕ → List ℕ → List (List ℕ)
  | 0, _ => [[]]
  | k + 1, xs =>
    (List.range xs.length).flatMap fun i =>
      (lexPerms k (xs.eraseIdx i)).map fun t => xs.getD i 0 :: t

/-- Line 89: `list(itertools.permutations(range(n_inputs), n_inputs))`. -/
def exactPermutations (n_inputs : ℕ) : List (List ℕ) :=
  lexPerms n_inputs (List.range n_inputs)

/-- Line 92: in exact mode `n_perms = len(permutations)`, replacing whatever
the caller passed. -/
def exactNPerms (n_inputs : ℕ) : ℕ := (exactPermutations n_inputs).length

/-- Lines 88-98: the branch on the `method` string.  The source performs no
validation whatsoever: `if (method == 'exact')` takes the exact branch and
*every other* method string falls into the `else` (random) branch, which
draws `n_perms` random permutations.  `Sum.inl` carries the exact-mode
permutation list; `Sum.inr` carries the caller's `n_perms` (the number of
random draws requested) — the random draws themselves are nondeterministic
and are not modelled further.  There is no error case because the source has
none. -/
def setupPermutations (method : String) (n_perms n_inputs : ℕ) :
    List (List ℕ) ⊕ ℕ :=
  if method = "exact" then Sum.inl (exactPermutations n_inputs) else Sum.inr n_perms

/-! Section: Design builder (lines 101-125) -/

/-- Line 101: number of rows of `model_inputs`
(`n_output + n_perms * (n_inputs - 1) * n_outer * n_inner`). -/
def designRows (n_perms n_inputs n_output n_outer n_inner : ℕ) : ℕ :=
  n_output + n_perms * (n_inputs - 1) * n_outer * n_inner

/-- Line 124: `inner_indices`, the first row of the block written for
permutation `p`, builder split `j` (ranging over `1 .. n_inputs-1`), outer
draw `l`. -/
def innerIndex (n_inputs n_output n_outer n_inner p j l : ℕ) : ℕ :=
  n_output + p * (n_inputs - 1) * n_outer * n_inner
    + (j - 1) * n_outer * n_inner + l * n_inner

/-- Line 109: the builder's split-point loop header `for j in range(1, n_inputs)`. -/
def builderSplits (n_inputs : ℕ) : List ℕ := List.range' 1 (n_inputs - 1)

/-- `np.argsort` (line 107): the indices of the list, sorted by the values
they point at. -/
def argsort (xs : List ℕ) : List ℕ :=
  List.insertionSort (fun i j => xs.getD i 0 ≤ xs.getD j 0) (List.range xs.length)

/-- Line 123: column `m` of `concatenated_sample` — the first `j` columns are
the conditional sample of `Sj = perms[:j]`, the remaining columns replicate
the outer draw for `Sjc = perms[j:]`. -/
def concatCols {α : Type} (j : ℕ) (sj sjc : ℕ → α) : ℕ → α :=
  fun m => if m < j then sj m else sjc (m - j)

/-- Line 125: `concatenated_sample[:, perms_sorted]` — one written design row,
the concatenated columns reindexed by `argsort(perms)`. -/
def buildRow {α : Type} (perm : List ℕ) (cols : ℕ → α) : List α :=
  (argsort perm).map cols

/-! Section: Effect estimator (lines 131-181) -/

/-- Line 137: `output_variance = np.var(output[:n_output])`. -/
def outputVariance (a : Args) (ys : List ℚ) : ℚ := npVar (ys.take a.n_output)

/-- Lines 154-156: the inner `for l in range(n_outer)` loop strips `n_inner`
values at a time off the front of the remaining output vector.  Returns the
stripped blocks in loop order together with the remaining output. -/
def stripBlocks (n_inner : ℕ) : ℕ → List ℚ → List (List ℚ) × List ℚ
  | 0, rem => ([], rem)
  | l + 1, rem =>
    let r := stripBlocks n_inner l (rem.drop n_inner)
    (rem.take n_inner :: r.1, r.2)

/-- Lines 154-158: `estimated_cost` at a non-final split — each stripped block's
Bessel-corrected variance (`np.var(·, ddof=1)`, line 157), averaged by
`np.mean(conditional_variance)` over the `n_outer` blocks (line 158). -/
def blockCost (n_outer n_inner : ℕ) (rem : List ℚ) : ℚ :=
  npMean (((stripBlocks n_inner n_outer rem).1).map npVarDdof1)

/-- Lines 148-164: one permutation's pass over the split points.  `js` is the
remaining part of the loop counter list `range(n_inputs)`, `prev` is
`previous_cost`.  At `j == n_inputs - 1` the cost is `output_variance` (`ov`)
and nothing is consumed; otherwise `n_outer` blocks of `n_inner` are stripped
and the cost is the mean of their `ddof=1` variances.  Returns the deltas
`estimated_cost - previous_cost` in split order and the remaining output. -/
def splitSteps (ov : ℚ) (n_inputs n_outer n_inner : ℕ) :
    List ℕ → ℚ → List ℚ → List ℚ × List ℚ
  | [], _, rem => ([], rem)
  | j :: js, prev, rem =>
    if j = n_inputs - 1 then
      let r := splitSteps ov n_inputs n_outer n_inner js ov rem
      ((ov - prev) :: r.1, r.2)
    else
      let s := stripBlocks n_inner n_outer rem
      let cost := npMean (s.1.map npVarDdof1)
      let r := splitSteps ov n_inputs n_outer n_inner js cost s.2
      ((cost - prev) :: r.1, r.2)

/-- Lines 143-164: the outer `for p in range(n_perms)` loop of the estimator,
threading the remaining output vector through the per-permutation passes
(`previous_cost` restarts at `0` for each permutation, line 146). -/
def permDeltas (ov : ℚ) (n_inputs n_outer n_inner : ℕ) :
    ℕ → List ℚ → List (List ℚ) × List ℚ
  | 0, rem => ([], rem)
  | p + 1, rem =>
    let s := splitSteps ov n_inputs n_outer n_inner (List.range n_inputs) 0 rem
    let r := permDeltas ov n_inputs n_outer n_inner p s.2
    (s.1 :: r.1, r.2)

/-- The whole estimation pass (lines 135-164): split off the unconditional
block, compute `output_variance`, then walk all permutations. -/
def estimationPass (a : Args) (ys : List ℚ) : List (List ℚ) × List ℚ :=
  permDeltas (outputVariance a ys) a.n_inputs a.n_outer a.n_inner a.n_perms
    (ys.drop a.n_output)

/-- The per-permutation delta lists produced by the estimation pass. -/
def deltas (a : Args) (ys : List ℚ) : List (List ℚ) :=
  (estimationPass a ys).1

/-- Lines 161: the running sum `shapley_effects[perms[j]] += delta`,
accumulated over all permutations and splits, for original input index `i`. -/
def accumDeltas (perms : List (List ℕ)) (dss : List (List ℚ))
    (n_perms n_inputs i : ℕ) : ℚ :=
  ∑ p ∈ Finset.range n_perms, ∑ j ∈ Finset.range n_inputs,
    if (perms.getD p []).getD j 0 = i then (dss.getD p []).getD j 0 else 0

/-- Line 162: the running sum `shapley_effects_squared[perms[j]] += delta**2`. -/
def accumSqDeltas (perms : List (List ℕ)) (dss : List (List ℚ))
    (n_perms n_inputs i : ℕ) : ℚ :=
  ∑ p ∈ Finset.range n_perms, ∑ j ∈ Finset.range n_inputs,
    if (perms.getD p []).getD j 0 = i then ((dss.getD p []).getD j 0) ^ 2 else 0

/-- Line 166: `shapley_effects / n_perms / output_variance`. -/
def shapleyEffect (a : Args) (perms : List (List ℕ)) (ys : List ℚ) (i : ℕ) : ℚ :=
  accumDeltas perms (deltas a ys) a.n_perms a.n_inputs i
    / a.n_perms / outputVariance a ys

/-- Line 167: `shapley_effects_squared / n_perms / (output_variance ** 2)`. -/
def shapleyEffectSquared (a : Args) (perms : List (List ℕ)) (ys : List ℚ)
    (i : ℕ) : ℚ :=
  accumSqDeltas perms (deltas a ys) a.n_perms a.n_inputs i
    / a.n_perms / (outputVariance a ys ^ 2)

/-- Line 168: `np.sqrt((shapley_effects_squared - shapley_effects**2) / n_perms)`.
Note: the source applies no clamp to the operand before the square root. -/
noncomputable def standardError (a : Args) (perms : List (List ℕ)) (ys : List ℚ)
    (i : ℕ) : ℝ :=
  Real.sqrt (((shapleyEffectSquared a perms ys i - shapleyEffect a perms ys i ^ 2)
    / a.n_perms : ℚ))

/-- Line 172: `CI_min = shapley_effects - 1.96 * standard_errors`. -/
noncomputable def ciMin (a : Args) (perms : List (List ℕ)) (ys : List ℚ)
    (i : ℕ) : ℝ :=
  (shapleyEffect a perms ys i : ℝ) - 1.96 * standardError a perms ys i

/-- Line 173: `CI_max = shapley_effects + 1.96 * standard_errors`. -/
noncomputable def ciMax (a : Args) (perms : List (List ℕ)) (ys : List ℚ)
    (i : ℕ) : ℝ :=
  (shapleyEffect a perms ys i : ℝ) + 1.96 * standardError a perms ys i

/-- Line 175: `col = ['X' + str(i) for i in np.arange(n_inputs) + 1]` — the
result table's index labels. -/
def inputLabels (n_inputs : ℕ) : List String :=
  (List.range n_inputs).map (fun i => "X" ++ toString (i + 1))

/-- Lines 177-181: the transposed result table — per input, the columns
`(Shapley effect, std. error, CI_min, CI_max)`. -/
noncomputable def resultRow (a : Args) (perms : List (List ℕ)) (ys : List ℚ)
    (i : ℕ) : ℝ × ℝ × ℝ × ℝ :=
  ((shapleyEffect a perms ys i : ℝ), standardError a perms ys i,
   ciMin a perms ys i, ciMax a perms ys i)

/-! Section: Specification-side descriptions used by the lock-step claim -/

/-- The model outputs for the `n_inner` design rows written at the
`(p, j, l)` write offset (`j` in the builder's numbering `1 .. n_inputs-1`). -/
def writtenBlock (a : Args) (ys : List ℚ) (p j l : ℕ) : List ℚ :=
  (ys.drop (innerIndex a.n_inputs a.n_output a.n_outer a.n_inner p j l)).take
    a.n_inner

/-- The estimated cost the lock-step reading predicts at estimator split `j`
(numbering `0 .. n_inputs-1`) of permutation `p`: `output_variance` at the
final split, otherwise the mean of the `ddof=1` variances of the blocks
*written* for builder split `j+1` of permutation `p`. -/
def lockstepCost (a : Args) (ys : List ℚ) (p j : ℕ) : ℚ :=
  if j = a.n_inputs - 1 then outputVariance a ys
  else (∑ l ∈ Finset.range a.n_outer, npVarDdof1 (writtenBlock a ys p (j + 1) l))
    / a.n_outer

/-- Every real denominator appearing in the estimation phase (lines 137-168):
`n_output` (unconditional variance), `n_inner` and `n_inner - 1` (inner-block
mean and Bessel-corrected variance), `n_outer` (`np.mean` over
`conditional_variance`), and `n_perms`, `output_variance`,
`output_variance ** 2` (final normalizations). -/
def estimationDivisorsNonzero (a : Args) (ys : List ℚ) : Prop :=
  (a.n_output : ℚ) ≠ 0 ∧ (a.n_inner : ℚ) ≠ 0 ∧ ((a.n_inner : ℚ) - 1) ≠ 0 ∧
  (a.n_outer : ℚ) ≠ 0 ∧ (a.n_perms : ℚ) ≠ 0 ∧
  outputVariance a ys ≠ 0 ∧ outputVariance a ys ^ 2 ≠ 0

/-! Section: Arithmetic of the block layout -/

/-- The write offset of line 124, regrouped around a mixed-radix block index. -/
lemma innerIndex_eq (n_inputs n_output n_outer n_inner p j l : ℕ) :
    innerIndex n_inputs n_output n_outer n_inner p j l
      = n_output + ((p * (n_inputs - 1) + (j - 1)) * n_outer + l) * n_inner := by
  unfold innerIndex; ring

lemma mixedRadix_lt {a b L A : ℕ} (ha : a < A) (hb : b < L) :
    a * L + b < A * L :=
  calc a * L + b < a * L + L := by omega
    _ = (a + 1) * L := by ring
    _ ≤ A * L := Nat.mul_le_mul_right L ha

lemma mixedRadix_inj {a b c d L : ℕ} (hb : b < L) (hd : d < L)
    (h : a * L + b = c * L + d) : a = c ∧ b = d := by
  have hL : 0 < L := Nat.pos_of_ne_zero (by omega)
  have hbd : b = d := by
    have h1 : (b + a * L) % L = (d + c * L) % L := by
      rw [Nat.add_comm b, Nat.add_comm d, h]
    rwa [Nat.add_mul_mod_self_right, Nat.add_mul_mod_self_right,
      Nat.mod_eq_of_lt hb, Nat.mod_eq_of_lt hd] at h1
  refine ⟨?_, hbd⟩
  subst hbd
  have h2 : a * L = c * L := by omega
  exact Nat.eq_of_mul_eq_mul_right hL h2

/-- Claim C4: The design matrix has `n_output + n_perms*(n_inputs-1)*n_outer*n_inner`
rows; each conditional block of `n_inner` rows for a triple `(p, j, l)` starts at
the offset of line 124, lies entirely inside the conditional region
`[n_output, designRows)`, distinct triples occupy pairwise disjoint row ranges,
and in the edge case `n_inputs = 1` the matrix has exactly `n_output` rows and
the builder's split loop `range(1, n_inputs)` is empty. -/
theorem claim_C4_design_layout (n_perms n_inputs n_output n_outer n_inner : ℕ) :
    (∀ p j l, p < n_perms → 1 ≤ j → j < n_inputs → l < n_outer →
      n_output ≤ innerIndex n_inputs n_output n_outer n_inner p j l ∧
      innerIndex n_inputs n_output n_outer n_inner p j l + n_inner
        ≤ designRows n_perms n_inputs n_output n_outer n_inner) ∧
    (∀ p j l p' j' l', p < n_perms → 1 ≤ j → j < n_inputs → l < n_outer →
      p' < n_perms → 1 ≤ j' → j' < n_inputs → l' < n_outer →
      (p, j, l) ≠ (p', j', l') →
      innerIndex n_inputs n_output n_outer n_inner p j l + n_inner
          ≤ innerIndex n_inputs n_output n_outer n_inner p' j' l' ∨
      innerIndex n_inputs n_output n_outer n_inner p' j' l' + n_inner
          ≤ innerIndex n_inputs n_output n_outer n_inner p j l) ∧
    (n_inputs = 1 →
      designRows n_perms n_inputs n_output n_outer n_inner = n_output ∧
      builderSplits n_inputs = []) := by
  have hblock : ∀ p j l, p < n_perms → 1 ≤ j → j < n_inputs → l < n_outer →
      (p * (n_inputs - 1) + (j - 1)) * n_outer + l < n_perms * (n_inputs - 1) * n_outer := by
    intro p j l hp hj1 hj2 hl
    have h1 : p * (n_inputs - 1) + (j - 1) < n_perms * (n_inputs - 1) :=
      mixedRadix_lt hp (by omega)
    have := mixedRadix_lt h1 hl
    omega
  refine ⟨?_, ?_, ?_⟩
  · intro p j l hp hj1 hj2 hl
    have hb := hblock p j l hp hj1 hj2 hl
    rw [innerIndex_eq]
    constructor
    · omega
    · unfold designRows
      have : ((p * (n_inputs - 1) + (j - 1)) * n_outer + l) * n_inner + n_inner
          ≤ n_perms * (n_inputs - 1) * n_outer * n_inner := by
        calc ((p * (n_inputs - 1) + (j - 1)) * n_outer + l) * n_inner + n_inner
            = (((p * (n_inputs - 1) + (j - 1)) * n_outer + l) + 1) * n_inner := by ring
          _ ≤ n_perms * (n_inputs - 1) * n_outer * n_inner :=
              Nat.mul_le_mul_right n_inner hb
      omega
  · intro p j l p' j' l' hp hj1 hj2 hl hp' hj1' hj2' hl' hne
    set b := (p * (n_inputs - 1) + (j - 1)) * n_outer + l with hbdef
    set b' := (p' * (n_inputs - 1) + (j' - 1)) * n_outer + l' with hbdef'
    have hbb : b ≠ b' := by
      intro h
      apply hne
      obtain ⟨h1, h2⟩ := mixedRadix_inj hl hl' h
      obtain ⟨h3, h4⟩ := mixedRadix_inj (b := j - 1) (d := j' - 1) (by omega) (by omega) h1
      have : j = j' := by omega
      have : p = p' := h3
      simp_all
    rw [innerIndex_eq, innerIndex_eq, ← hbdef, ← hbdef']
    rcases Nat.lt_or_ge b b' with hlt | hge
    · left
      have : (b + 1) * n_inner ≤ b' * n_inner := Nat.mul_le_mul_right n_inner hlt
      calc n_output + b * n_inner + n_inner = n_output + (b + 1) * n_inner := by ring
        _ ≤ n_output + b' * n_inner := by omega
    · have hlt' : b' < b := by omega
      right
      have : (b' + 1) * n_inner ≤ b * n_inner := Nat.mul_le_mul_right n_inner hlt'
      calc n_output + b' * n_inner + n_inner = n_output + (b' + 1) * n_inner := by ring
        _ ≤ n_output + b * n_inner := by omega
  · intro h
    subst h
    exact ⟨by unfold designRows; ring, rfl⟩

/-- Witness for C4 at `n_perms = 2`, `n_inputs = 3`, `n_output = 5`,
`n_outer = 2`, `n_inner = 3`: the `(1, 2, 1)` block is inside the matrix and
disjoint from the `(0, 1, 0)` block, and the `n_inputs = 1` edge case. -/
theorem claim_C4_design_layout_witness :
    (5 ≤ innerIndex 3 5 2 3 1 2 1 ∧ innerIndex 3 5 2 3 1 2 1 + 3 ≤ designRows 2 3 5 2 3) ∧
    (innerIndex 3 5 2 3 0 1 0 + 3 ≤ innerIndex 3 5 2 3 1 2 1 ∨
      innerIndex 3 5 2 3 1 2 1 + 3 ≤ innerIndex 3 5 2 3 0 1 0) ∧
    (designRows 2 1 5 2 3 = 5 ∧ builderSplits 1 = []) := by
  refine ⟨(claim_C4_design_layout 2 3 5 2 3).1 1 2 1 (by decide) (by decide) (by decide) (by decide),
    (claim_C4_design_layout 2 3 5 2 3).2.1 0 1 0 1 2 1 (by decide) (by decide) (by decide)
      (by decide) (by decide) (by decide) (by decide) (by decide) (by decide), ?_⟩
  exact (claim_C4_design_layout 2 1 5 2 3).2.2 rfl

/-! Section: Method dispatch: absence of validation -/

/-- Claim C8, counterexample: The claim says an unsupported method string (or
`n_inputs < 1`, or `n_perms < 1` in random mode) fails with an
`InvalidArgument` before any computation.  The source contains no validation
at all: the unsupported method string `"bogus"` silently falls into the
`else` branch of line 88 and is treated as the random method with the
caller's `n_perms = 5`, and computation proceeds. -/
theorem claim_C8_counterexample :
    setupPermutations "bogus" 5 3 = Sum.inr 5 ∧
    setupPermutations "exact" 5 0 = Sum.inl [[]] := by
  constructor <;> decide

/-- Claim C8, amended: `get_shapley` performs no argument validation and never
raises an `InvalidArgument`: every method string other than `"exact"`
(unsupported strings included) silently selects the random branch with the
caller's `n_perms`, and `n_inputs`/`n_perms` are not checked before
computation starts. -/
theorem claim_C8_no_validation (method : String) (n_perms n_inputs : ℕ)
    (h : method ≠ "exact") :
    setupPermutations method n_perms n_inputs = Sum.inr n_perms := by
  unfold setupPermutations
  simp [h]

/-- Witness for the amended C8 at `method = "random"`. -/
theorem claim_C8_no_validation_witness :
    setupPermutations "random" 4 2 = Sum.inr 4 :=
  claim_C8_no_validation "random" 4 2 (by decide)

/-! Section: The column un-permutation (C1) -/

/-- Reading a list back off `List.range` through `getD` reproduces it. -/
lemma map_getD_range {α : Type} (l : List α) (d : α) :
    (List.range l.length).map (fun i => l.getD i d) = l := by
  induction l with
  | nil => simp
  | cons x xs ih =>
    rw [List.length_cons, List.range_succ_eq_map, List.map_cons, List.map_map]
    have hcomp : ((fun i => (x :: xs).getD i d) ∘ Nat.succ) = fun i => xs.getD i d := by
      funext i
      simp
    rw [List.getD_cons_zero, hcomp, ih]

lemma argsort_perm (xs : List ℕ) : (argsort xs).Perm (List.range xs.length) :=
  List.perm_insertionSort _ _

lemma argsort_sorted (xs : List ℕ) :
    List.Sorted (fun i j => xs.getD i 0 ≤ xs.getD j 0) (argsort xs) := by
  haveI : IsTotal ℕ (fun i j => xs.getD i 0 ≤ xs.getD j 0) :=
    ⟨fun _ _ => le_total _ _⟩
  haveI : IsTrans ℕ (fun i j => xs.getD i 0 ≤ xs.getD j 0) :=
    ⟨fun _ _ _ hab hbc => le_trans hab hbc⟩
  exact List.sorted_insertionSort _ _

/-- On a permutation of `range n`, `argsort` is the inverse permutation:
position `k` of the argsort points at the position of value `k`. -/
lemma argsort_getD (xs : List ℕ) {n : ℕ} (hperm : xs.Perm (List.range n))
    {k : ℕ} (hk : k < n) : xs.getD ((argsort xs).getD k 0) 0 = k := by
  have hlen : xs.length = n := by simpa using hperm.length_eq
  set ys := argsort xs with hys
  have hysperm : ys.Perm (List.range n) := by
    rw [hys, ← hlen]; exact argsort_perm xs
  have hyslen : ys.length = n := by simpa using hysperm.length_eq
  set f : ℕ → ℕ := fun i => xs.getD i 0 with hf
  have hzs : (ys.map f).Perm (List.range n) := by
    have h2 : (List.range n).map f = xs := by
      rw [hf, ← hlen]; exact map_getD_range xs 0
    have h1 : (ys.map f).Perm ((List.range n).map f) := hysperm.map f
    rw [h2] at h1
    exact h1.trans hperm
  have hsorted : List.Sorted (· ≤ ·) (ys.map f) :=
    List.Pairwise.map f (fun _ _ h => h) (argsort_sorted xs)
  have hrange : List.Sorted (· ≤ ·) (List.range n) :=
    (List.pairwise_lt_range n).imp le_of_lt
  have heq : ys.map f = List.range n :=
    List.eq_of_perm_of_sorted hzs hsorted hrange
  have hky : k < ys.length := by rw [hyslen]; exact hk
  have hk' : k < (ys.map f).length := by simpa using hky
  have h3 : (ys.map f).getD k 0 = f (ys.getD k 0) := by
    rw [List.getD_eq_getElem _ 0 hk', List.getD_eq_getElem _ 0 hky, List.getElem_map]
  have h4 : (List.range n).getD k 0 = k := by
    rw [List.getD_eq_getElem _ 0 (by simpa using hk), List.getElem_range]
  rw [heq, h4] at h3
  exact h3.symm

/-- Claim C1: Column un-permutation round trip.  If `perm` is a permutation of
`0..n-1` and the concatenated sample columns carry, per column `m`, the value
belonging to input `perm[m]` (the first `j` columns the conditional `Sj`
samples, the rest the replicated `Sjc` outer draw), then after reindexing by
`argsort(perm)` (line 125) column `k` of the written design row holds the
value for original input index `k`, for every `k < n`. -/
theorem claim_C1_column_unpermutation {α : Type} (n : ℕ) (perm : List ℕ)
    (hperm : perm.Perm (List.range n)) (value : ℕ → α) (j : ℕ)
    (sj sjc : ℕ → α)
    (hsj : ∀ m, m < j → sj m = value (perm.getD m 0))
    (hsjc : ∀ m, j ≤ m → m < n → sjc (m - j) = value (perm.getD m 0)) :
    ∀ k (d : α), k < n →
      (buildRow perm (concatCols j sj sjc)).getD k d = value k := by
  intro k d hk
  have hlen : perm.length = n := by simpa using hperm.length_eq
  have hasort : (argsort perm).Perm (List.range n) := by
    rw [← hlen]; exact argsort_perm perm
  have halen : (argsort perm).length = n := by simpa using hasort.length_eq
  have hk' : k < (argsort perm).length := by rw [halen]; exact hk
  have hrow : (buildRow perm (concatCols j sj sjc)).getD k d
      = concatCols j sj sjc ((argsort perm).getD k 0) := by
    unfold buildRow
    rw [List.getD_eq_getElem _ d (by simpa [halen] using hk),
      List.getElem_map, ← List.getD_eq_getElem _ 0 hk']
  set m := (argsort perm).getD k 0 with hm
  have hmem : m ∈ argsort perm := by
    rw [hm, List.getD_eq_getElem _ 0 hk']
    exact List.getElem_mem hk'
  have hmn : m < n := by
    have := hasort.mem_iff.mp hmem
    simpa using this
  have hval : concatCols j sj sjc m = value (perm.getD m 0) := by
    unfold concatCols
    by_cases hmj : m < j
    · rw [if_pos hmj]; exact hsj m hmj
    · rw [if_neg hmj]; exact hsjc m (le_of_not_lt hmj) hmn
  rw [hrow, hval, hm, argsort_getD perm hperm hk]

/-- Witness for C1 at permutation `[2,0,1]` with placeholder value `10*k+7`
for original input `k`: the written design row is `[7, 17, 27]`, i.e. direct
unpermuted placement. -/
theorem claim_C1_column_unpermutation_witness :
    (buildRow [2,0,1] (concatCols 2 (fun m => [2,0,1].getD m 0 * 10 + 7)
        (fun m => [2,0,1].getD (2 + m) 0 * 10 + 7))).getD 0 0 = 7 ∧
    (buildRow [2,0,1] (concatCols 2 (fun m => [2,0,1].getD m 0 * 10 + 7)
        (fun m => [2,0,1].getD (2 + m) 0 * 10 + 7))).getD 1 0 = 17 ∧
    (buildRow [2,0,1] (concatCols 2 (fun m => [2,0,1].getD m 0 * 10 + 7)
        (fun m => [2,0,1].getD (2 + m) 0 * 10 + 7))).getD 2 0 = 27 := by
  have h := claim_C1_column_unpermutation (α := ℕ) 3 [2,0,1] (by decide)
    (fun k => k * 10 + 7) 2
    (fun m => [2,0,1].getD m 0 * 10 + 7)
    (fun m => [2,0,1].getD (2 + m) 0 * 10 + 7)
    (fun m _ => rfl)
    (fun m h2 h3 => by
      have hm : m = 2 := by omega
      subst hm; rfl)
  exact ⟨h 0 0 (by decide), h 1 0 (by decide), h 2 0 (by decide)⟩

/-! Section: The exact permutation generator (C7) -/

/-- Picking out element `i` and the remainder is a permutation of the list. -/
lemma cons_eraseIdx_perm (xs : List ℕ) (i : ℕ) (hi : i < xs.length) :
    (xs.getD i 0 :: xs.eraseIdx i).Perm xs := by
  have hx : xs.getD i 0 = xs[i] := List.getD_eq_getElem xs 0 hi
  have hxs : xs = xs.take i ++ xs[i] :: xs.drop (i + 1) := by
    conv_lhs => rw [← List.take_append_drop i xs]
    rw [List.drop_eq_getElem_cons hi]
  rw [List.eraseIdx_eq_take_drop_succ, hx]
  conv_rhs => rw [hxs]
  exact List.perm_middle.symm

lemma lexPerms_length : ∀ (k : ℕ) (xs : List ℕ), xs.length = k →
    (lexPerms k xs).length = Nat.factorial k := by
  intro k
  induction k with
  | zero => intro xs _; rfl
  | succ k ih =>
    intro xs hlen
    show ((List.range xs.length).flatMap fun i =>
      (lexPerms k (xs.eraseIdx i)).map fun t => xs.getD i 0 :: t).length = _
    rw [List.length_flatMap]
    have hmap : List.map (List.length ∘ fun i =>
        (lexPerms k (xs.eraseIdx i)).map fun t => xs.getD i 0 :: t)
          (List.range xs.length)
        = List.map (fun _ => Nat.factorial k) (List.range xs.length) := by
      apply List.map_congr_left
      intro i hi
      have hi' : i < xs.length := List.mem_range.mp hi
      have herase : (xs.eraseIdx i).length = k := by
        rw [List.length_eraseIdx]
        simp only [if_pos hi']
        omega
      simp only [Function.comp_apply, List.length_map]
      exact ih (xs.eraseIdx i) herase
    rw [hmap, List.map_const', List.sum_replicate, List.length_range, hlen,
      smul_eq_mul, Nat.factorial_succ]

lemma lexPerms_mem : ∀ (k : ℕ) (xs : List ℕ) (q : List ℕ), xs.length = k →
    q ∈ lexPerms k xs → q.Perm xs := by
  intro k
  induction k with
  | zero =>
    intro xs q hlen hq
    have hxs : xs = [] := List.length_eq_zero.mp hlen
    have hq' : q = [] := by
      change q ∈ [[]] at hq
      simpa using hq
    rw [hxs, hq']
  | succ k ih =>
    intro xs q hlen hq
    change q ∈ (List.range xs.length).flatMap _ at hq
    obtain ⟨i, hi, hmem⟩ := List.mem_flatMap.mp hq
    obtain ⟨t, ht, rfl⟩ := List.mem_map.mp hmem
    have hi' : i < xs.length := List.mem_range.mp hi
    have herase : (xs.eraseIdx i).length = k := by
      rw [List.length_eraseIdx]
      simp only [if_pos hi']
      omega
    have htperm : t.Perm (xs.eraseIdx i) := ih (xs.eraseIdx i) t herase ht
    exact (htperm.cons (xs.getD i 0)).trans (cons_eraseIdx_perm xs i hi')

/-- Strict lexicographic order is irreflexive. -/
lemma lex_lt_irrefl : ∀ (l : List ℕ), ¬ List.Lex (· < ·) l l := by
  intro l
  induction l with
  | nil => intro h; cases h
  | cons x xs ih =>
    intro h
    cases h with
    | cons h => exact ih h
    | rel h => exact lt_irrefl x h

lemma lexPerms_pairwise : ∀ (k : ℕ) (xs : List ℕ), xs.length = k →
    List.Sorted (· < ·) xs →
    List.Pairwise (List.Lex (· < ·)) (lexPerms k xs) := by
  intro k
  induction k with
  | zero => intro xs _ _; exact List.pairwise_singleton _ _
  | succ k ih =>
    intro xs hlen hsorted
    show List.Pairwise _ ((List.range xs.length).flatMap fun i =>
      (lexPerms k (xs.eraseIdx i)).map fun t => xs.getD i 0 :: t)
    rw [List.pairwise_flatMap]
    constructor
    · intro i hi
      have hi' : i < xs.length := List.mem_range.mp hi
      have herase : (xs.eraseIdx i).length = k := by
        rw [List.length_eraseIdx]
        simp only [if_pos hi']
        omega
      have hsorted' : List.Sorted (· < ·) (xs.eraseIdx i) :=
        List.Pairwise.sublist (List.eraseIdx_sublist xs i) hsorted
      exact List.Pairwise.map _ (fun _ _ h => List.Lex.cons h)
        (ih (xs.eraseIdx i) herase hsorted')
    · apply List.Pairwise.imp_of_mem ?_ (List.pairwise_lt_range xs.length)
      intro i₁ i₂ h₁ h₂ hlt x hx y hy
      obtain ⟨t₁, _, rfl⟩ := List.mem_map.mp hx
      obtain ⟨t₂, _, rfl⟩ := List.mem_map.mp hy
      have hi₁ : i₁ < xs.length := List.mem_range.mp h₁
      have hi₂ : i₂ < xs.length := List.mem_range.mp h₂
      have hv : xs.getD i₁ 0 < xs.getD i₂ 0 := by
        rw [List.getD_eq_getElem xs 0 hi₁, List.getD_eq_getElem xs 0 hi₂]
        exact List.pairwise_iff_getElem.mp hsorted i₁ i₂ hi₁ hi₂ hlt
      exact List.Lex.rel hv

/-- Claim C7: Exact mode: `itertools.permutations(range(n), n)` (line 89)
produces all `n!` permutations of `{0,...,n-1}` — each a valid permutation in
which every index occurs exactly once — in strictly increasing (hence fixed
and reproducible) lexicographic order with no duplicates; `n_perms` is set to
`n!` (line 92) and the caller-supplied `n_perms` is ignored in this mode. -/
theorem claim_C7_exact_mode (n : ℕ) :
    (exactPermutations n).length = Nat.factorial n ∧
    exactNPerms n = Nat.factorial n ∧
    (∀ q ∈ exactPermutations n, q.Perm (List.range n)) ∧
    List.Pairwise (List.Lex (· < ·)) (exactPermutations n) ∧
    (exactPermutations n).Nodup ∧
    (∀ m₁ m₂ : ℕ, setupPermutations "exact" m₁ n = setupPermutations "exact" m₂ n
      ∧ setupPermutations "exact" m₁ n = Sum.inl (exactPermutations n)) := by
  have hlen : (List.range n).length = n := List.length_range n
  have h1 : (exactPermutations n).length = Nat.factorial n :=
    lexPerms_length n (List.range n) hlen
  have h3 : ∀ q ∈ exactPermutations n, q.Perm (List.range n) :=
    fun q hq => lexPerms_mem n (List.range n) q hlen hq
  have h4 : List.Pairwise (List.Lex (· < ·)) (exactPermutations n) :=
    lexPerms_pairwise n (List.range n) hlen (List.pairwise_lt_range n)
  refine ⟨h1, h1, h3, h4, ?_, ?_⟩
  · exact List.Pairwise.imp_of_mem
      (fun _ _ hlex heq => lex_lt_irrefl _ (heq ▸ hlex)) h4
  · intro m₁ m₂
    exact ⟨rfl, rfl⟩

/-- Witness for C7 at `n = 3`: `3! = 6` permutations, and the member
`[1,2,0]` is a permutation of `0..2`; the caller-supplied `n_perms` values
`0` and `99` give the same exact-mode setup. -/
theorem claim_C7_exact_mode_witness :
    (exactPermutations 3).length = 6 ∧ ([1,2,0]).Perm (List.range 3) ∧
    setupPermutations "exact" 0 3 = setupPermutations "exact" 99 3 := by
  refine ⟨?_, (claim_C7_exact_mode 3).2.2.1 [1,2,0] (by decide), ?_⟩
  · have := (claim_C7_exact_mode 3).1
    simpa using this
  · exact ((claim_C7_exact_mode 3).2.2.2.2.2 0 99).1

/-! Section: Reader threading lemmas (estimation pass) -/

lemma stripBlocks_fst_length (n_inner : ℕ) :
    ∀ (k : ℕ) (rem : List ℚ), (stripBlocks n_inner k rem).1.length = k := by
  intro k
  induction k with
  | zero => intro rem; rfl
  | succ l ih =>
    intro rem
    show (rem.take n_inner :: (stripBlocks n_inner l (rem.drop n_inner)).1).length = _
    rw [List.length_cons, ih]

lemma stripBlocks_snd (n_inner : ℕ) :
    ∀ (k : ℕ) (rem : List ℚ),
      (stripBlocks n_inner k rem).2 = rem.drop (k * n_inner) := by
  intro k
  induction k with
  | zero => intro rem; simp [stripBlocks]
  | succ l ih =>
    intro rem
    show (stripBlocks n_inner l (rem.drop n_inner)).2 = _
    rw [ih, List.drop_drop]
    congr 1
    ring

lemma stripBlocks_fst_getD (n_inner : ℕ) :
    ∀ (k : ℕ) (rem : List ℚ) (l : ℕ), l < k →
      (stripBlocks n_inner k rem).1.getD l []
        = (rem.drop (l * n_inner)).take n_inner := by
  intro k
  induction k with
  | zero => intro rem l hl; omega
  | succ k ih =>
    intro rem l hl
    show (rem.take n_inner :: (stripBlocks n_inner k (rem.drop n_inner)).1).getD l [] = _
    cases l with
    | zero => simp
    | succ l' =>
      rw [List.getD_cons_succ, ih (rem.drop n_inner) l' (by omega), List.drop_drop]
      congr 2
      ring

lemma sum_getD_range (l : List ℚ) :
    ∑ j ∈ Finset.range l.length, l.getD j 0 = l.sum := by
  induction l with
  | nil => simp
  | cons x xs ih =>
    rw [List.length_cons, Finset.sum_range_succ']
    simp only [List.getD_cons_succ, List.getD_cons_zero]
    rw [ih, List.sum_cons, add_comm]

lemma splitSteps_fst_length (ov : ℚ) (n_inputs n_outer n_inner : ℕ) :
    ∀ (js : List ℕ) (prev : ℚ) (rem : List ℚ),
      (splitSteps ov n_inputs n_outer n_inner js prev rem).1.length = js.length := by
  intro js
  induction js with
  | nil => intro prev rem; rfl
  | cons j js ih =>
    intro prev rem
    by_cases h : j = n_inputs - 1 <;>
      simp only [splitSteps, h, if_true, if_false, reduceIte, List.length_cons] <;>
      rw [ih]

/-- Unfolding `splitSteps` one final step (`j = n_inputs - 1`): the cost is
`ov` and nothing is consumed. -/
lemma splitSteps_cons_final (ov : ℚ) (n_inputs n_outer n_inner j : ℕ)
    (js : List ℕ) (prev : ℚ) (rem : List ℚ) (h : j = n_inputs - 1) :
    splitSteps ov n_inputs n_outer n_inner (j :: js) prev rem
      = ((ov - prev) :: (splitSteps ov n_inputs n_outer n_inner js ov rem).1,
         (splitSteps ov n_inputs n_outer n_inner js ov rem).2) := by
  simp only [splitSteps, h, reduceIte]

/-- Unfolding `splitSteps` one non-final step: `n_outer * n_inner` values are
consumed and the cost is `blockCost`. -/
lemma splitSteps_cons_nonfinal (ov : ℚ) (n_inputs n_outer n_inner j : ℕ)
    (js : List ℕ) (prev : ℚ) (rem : List ℚ) (h : j ≠ n_inputs - 1) :
    splitSteps ov n_inputs n_outer n_inner (j :: js) prev rem
      = ((blockCost n_outer n_inner rem - prev)
          :: (splitSteps ov n_inputs n_outer n_inner js
              (blockCost n_outer n_inner rem) (rem.drop (n_outer * n_inner))).1,
         (splitSteps ov n_inputs n_outer n_inner js
              (blockCost n_outer n_inner rem) (rem.drop (n_outer * n_inner))).2) := by
  have hsnd : (stripBlocks n_inner n_outer rem).2 = rem.drop (n_outer * n_inner) :=
    stripBlocks_snd n_inner n_outer rem
  simp only [splitSteps, h, reduceIte, blockCost, hsnd]

/-- Telescoping: when the split list ends with the final split index
`n_inputs - 1` (whose cost is `output_variance`), the deltas of one
permutation pass sum to `ov - previous_cost`. -/
lemma splitSteps_sum (ov : ℚ) (n_inputs n_outer n_inner : ℕ) :
    ∀ (js : List ℕ) (prev : ℚ) (rem : List ℚ),
      js.getLast? = some (n_inputs - 1) →
      (splitSteps ov n_inputs n_outer n_inner js prev rem).1.sum = ov - prev := by
  intro js
  induction js with
  | nil => intro prev rem h; simp at h
  | cons j js ih =>
    intro prev rem hlast
    cases js with
    | nil =>
      have hj : j = n_inputs - 1 := by simpa using hlast
      rw [splitSteps_cons_final ov n_inputs n_outer n_inner j [] prev rem hj]
      show ((ov - prev) :: ([] : List ℚ)).sum = ov - prev
      simp
    | cons j' js' =>
      have hlast' : (j' :: js').getLast? = some (n_inputs - 1) := by
        rwa [List.getLast?_cons_cons] at hlast
      by_cases h : j = n_inputs - 1
      · rw [splitSteps_cons_final ov n_inputs n_outer n_inner j _ prev rem h,
          List.sum_cons, ih ov rem hlast']
        ring
      · rw [splitSteps_cons_nonfinal ov n_inputs n_outer n_inner j _ prev rem h,
          List.sum_cons, ih _ _ hlast']
        ring

/-- The cost the sequential reader computes at relative step `k` of a pass
segment whose split counter starts at `jstart`, when the remaining output was
`rem` as the segment began: `ov` at the final split, otherwise the mean block
variance of the `k`-th group of `n_outer * n_inner` values, counting
sequentially from `rem`. -/
def stepCost (ov : ℚ) (n_inputs n_outer n_inner : ℕ) (rem : List ℚ)
    (jstart k : ℕ) : ℚ :=
  if jstart + k = n_inputs - 1 then ov
  else blockCost n_outer n_inner (rem.drop (k * (n_outer * n_inner)))

/-- Full characterization of one permutation pass on the split counter list
`range'(jstart, m)` with `jstart + m = n_inputs`: the pass consumes exactly
`(m-1) * n_outer * n_inner` output values (the final split consumes none),
and the `k`-th delta is `stepCost k - stepCost (k-1)` (with `previous_cost`
in place of `stepCost (k-1)` at `k = 0`). -/
lemma splitSteps_range' (ov : ℚ) (n_inputs n_outer n_inner : ℕ) :
    ∀ (m jstart : ℕ), jstart + m = n_inputs →
    ∀ (prev : ℚ) (rem : List ℚ),
      (splitSteps ov n_inputs n_outer n_inner (List.range' jstart m) prev rem).2
          = rem.drop ((m - 1) * (n_outer * n_inner)) ∧
      ∀ k, k < m →
        (splitSteps ov n_inputs n_outer n_inner (List.range' jstart m) prev rem).1.getD k 0
          = stepCost ov n_inputs n_outer n_inner rem jstart k
            - (if k = 0 then prev
               else stepCost ov n_inputs n_outer n_inner rem jstart (k - 1)) := by
  intro m
  induction m with
  | zero =>
    intro jstart hm prev rem
    constructor
    · simp [List.range'_zero, splitSteps]
    · intro k hk
      omega
  | succ m ih =>
    intro jstart hm prev rem
    rw [List.range'_succ]
    by_cases hm0 : m = 0
    · subst hm0
      have hj : jstart = n_inputs - 1 := by omega
      rw [splitSteps_cons_final ov n_inputs n_outer n_inner jstart _ prev rem hj]
      constructor
      · simp [List.range'_zero, splitSteps]
      · intro k hk
        have hk0 : k = 0 := by omega
        subst hk0
        rw [List.getD_cons_zero]
        simp [stepCost, hj]
    · have hjne : jstart ≠ n_inputs - 1 := by omega
      rw [splitSteps_cons_nonfinal ov n_inputs n_outer n_inner jstart _ prev rem hjne]
      have hsum : (jstart + 1) + m = n_inputs := by omega
      obtain ⟨ihsnd, ihget⟩ := ih (jstart + 1) hsum (blockCost n_outer n_inner rem)
        (rem.drop (n_outer * n_inner))
      have hstep : ∀ k'', stepCost ov n_inputs n_outer n_inner
          (rem.drop (n_outer * n_inner)) (jstart + 1) k''
            = stepCost ov n_inputs n_outer n_inner rem jstart (k'' + 1) := by
        intro k''
        unfold stepCost
        have harith : jstart + 1 + k'' = jstart + (k'' + 1) := by omega
        rw [harith]
        by_cases hc : jstart + (k'' + 1) = n_inputs - 1
        · rw [if_pos hc, if_pos hc]
        · rw [if_neg hc, if_neg hc, List.drop_drop]
          congr 2
          ring
      constructor
      · show (splitSteps ov n_inputs n_outer n_inner (List.range' (jstart + 1) m)
            (blockCost n_outer n_inner rem) (rem.drop (n_outer * n_inner))).2 = _
        rw [ihsnd, List.drop_drop]
        obtain ⟨m', rfl⟩ : ∃ m', m = m' + 1 := ⟨m - 1, by omega⟩
        congr 1
        simp only [Nat.add_sub_cancel]
        ring
      · intro k hk
        cases k with
        | zero =>
          rw [List.getD_cons_zero]
          simp [stepCost, hjne]
        | succ k' =>
          rw [List.getD_cons_succ, ihget k' (by omega), hstep k',
            if_neg (Nat.succ_ne_zero k'), Nat.add_sub_cancel]
          congr 1
          by_cases hk0 : k' = 0
          · subst hk0
            rw [if_pos rfl]
            simp [stepCost, hjne]
          · rw [if_neg hk0, hstep (k' - 1)]
            have h1 : k' - 1 + 1 = k' := Nat.succ_pred_eq_of_pos (Nat.pos_of_ne_zero hk0)
            rw [h1]

lemma splitSteps_range_snd (ov : ℚ) (n_inputs n_outer n_inner : ℕ) (prev : ℚ)
    (rem : List ℚ) :
    (splitSteps ov n_inputs n_outer n_inner (List.range n_inputs) prev rem).2
      = rem.drop ((n_inputs - 1) * (n_outer * n_inner)) := by
  rw [List.range_eq_range']
  exact (splitSteps_range' ov n_inputs n_outer n_inner n_inputs 0 (by omega) prev rem).1

lemma permDeltas_snd (ov : ℚ) (n_inputs n_outer n_inner : ℕ) :
    ∀ (P : ℕ) (rem : List ℚ),
      (permDeltas ov n_inputs n_outer n_inner P rem).2
        = rem.drop (P * ((n_inputs - 1) * (n_outer * n_inner))) := by
  intro P
  induction P with
  | zero => intro rem; simp [permDeltas]
  | succ P ih =>
    intro rem
    show (permDeltas ov n_inputs n_outer n_inner P
      (splitSteps ov n_inputs n_outer n_inner (List.range n_inputs) 0 rem).2).2 = _
    rw [splitSteps_range_snd, ih, List.drop_drop]
    congr 1
    ring

lemma permDeltas_getD (ov : ℚ) (n_inputs n_outer n_inner : ℕ) :
    ∀ (P p : ℕ) (rem : List ℚ), p < P →
      (permDeltas ov n_inputs n_outer n_inner P rem).1.getD p []
        = (splitSteps ov n_inputs n_outer n_inner (List.range n_inputs) 0
            (rem.drop (p * ((n_inputs - 1) * (n_outer * n_inner))))).1 := by
  intro P
  induction P with
  | zero => intro p rem hp; omega
  | succ P ih =>
    intro p rem hp
    show ((splitSteps ov n_inputs n_outer n_inner (List.range n_inputs) 0 rem).1
      :: (permDeltas ov n_inputs n_outer n_inner P
          (splitSteps ov n_inputs n_outer n_inner (List.range n_inputs) 0 rem).2).1).getD p []
      = _
    cases p with
    | zero =>
      rw [List.getD_cons_zero, Nat.zero_mul, List.drop_zero]
    | succ p' =>
      rw [List.getD_cons_succ, ih p' _ (by omega), splitSteps_range_snd]
      have heq : ((rem.drop ((n_inputs - 1) * (n_outer * n_inner))).drop
            (p' * ((n_inputs - 1) * (n_outer * n_inner))))
          = rem.drop ((p' + 1) * ((n_inputs - 1) * (n_outer * n_inner))) := by
        rw [List.drop_drop]
        congr 1
        ring
      rw [heq]

lemma range_getLast? (n : ℕ) (hn : 1 ≤ n) :
    (List.range n).getLast? = some (n - 1) := by
  obtain ⟨m, rfl⟩ : ∃ m, n = m + 1 := ⟨n - 1, by omega⟩
  rw [List.range_succ, List.getLast?_concat]
  simp

/-- Claim C3: Telescoping and normalization: with `previous_cost` starting at 0
and the final split's cost equal to `output_variance`, the per-split deltas
of every single permutation sum exactly to `output_variance`; consequently
when `output_variance ≠ 0` the returned Shapley effects sum exactly to 1. -/
theorem claim_C3_telescoping (a : Args) (perms : List (List ℕ)) (ys : List ℚ)
    (hn : 1 ≤ a.n_inputs) (hP : 1 ≤ a.n_perms)
    (hperm : ∀ p, p < a.n_perms → (perms.getD p []).Perm (List.range a.n_inputs))
    (hov : outputVariance a ys ≠ 0) :
    (∀ p, p < a.n_perms → ((deltas a ys).getD p []).sum = outputVariance a ys) ∧
    ∑ i ∈ Finset.range a.n_inputs, shapleyEffect a perms ys i = 1 := by
  have hdsum : ∀ p, p < a.n_perms →
      ((deltas a ys).getD p []).sum = outputVariance a ys := by
    intro p hp
    show ((permDeltas (outputVariance a ys) a.n_inputs a.n_outer a.n_inner a.n_perms
      (ys.drop a.n_output)).1.getD p []).sum = _
    rw [permDeltas_getD _ _ _ _ a.n_perms p _ hp,
      splitSteps_sum _ _ _ _ _ 0 _ (range_getLast? a.n_inputs hn), sub_zero]
  refine ⟨hdsum, ?_⟩
  have hdlen : ∀ p, p < a.n_perms →
      ((deltas a ys).getD p []).length = a.n_inputs := by
    intro p hp
    show ((permDeltas (outputVariance a ys) a.n_inputs a.n_outer a.n_inner a.n_perms
      (ys.drop a.n_output)).1.getD p []).length = _
    rw [permDeltas_getD _ _ _ _ a.n_perms p _ hp, splitSteps_fst_length,
      List.length_range]
  have hA : ∑ i ∈ Finset.range a.n_inputs,
      accumDeltas perms (deltas a ys) a.n_perms a.n_inputs i
        = (a.n_perms : ℚ) * outputVariance a ys := by
    unfold accumDeltas
    rw [Finset.sum_comm]
    have hinner : ∀ p ∈ Finset.range a.n_perms,
        (∑ i ∈ Finset.range a.n_inputs, ∑ j ∈ Finset.range a.n_inputs,
          if (perms.getD p []).getD j 0 = i
          then ((deltas a ys).getD p []).getD j 0 else 0)
          = outputVariance a ys := by
      intro p hp
      have hp' := Finset.mem_range.mp hp
      rw [Finset.sum_comm]
      have hj : ∀ j ∈ Finset.range a.n_inputs,
          (∑ i ∈ Finset.range a.n_inputs,
            if (perms.getD p []).getD j 0 = i
            then ((deltas a ys).getD p []).getD j 0 else 0)
            = ((deltas a ys).getD p []).getD j 0 := by
        intro j hjmem
        have hj' := Finset.mem_range.mp hjmem
        rw [Finset.sum_ite_eq, if_pos]
        have hplen : (perms.getD p []).length = a.n_inputs := by
          simpa using (hperm p hp').length_eq
        have hjp : j < (perms.getD p []).length := by rw [hplen]; exact hj'
        have hmem : (perms.getD p []).getD j 0 ∈ perms.getD p [] := by
          rw [List.getD_eq_getElem _ 0 hjp]
          exact List.getElem_mem hjp
        simpa using (hperm p hp').mem_iff.mp hmem
      rw [Finset.sum_congr rfl hj, ← hdlen p hp', sum_getD_range]
      exact hdsum p hp'
    rw [Finset.sum_congr rfl hinner, Finset.sum_const, Finset.card_range,
      nsmul_eq_mul]
  have hPne : (a.n_perms : ℚ) ≠ 0 := Nat.cast_ne_zero.mpr (by omega)
  unfold shapleyEffect
  rw [← Finset.sum_div, ← Finset.sum_div, hA]
  field_simp

/-- Witness for C3 with `n_inputs = 2`, `n_perms = 2`, exact permutations
`[[0,1],[1,0]]`, `n_output = 2`, `n_outer = 1`, `n_inner = 2` and output
vector `[0,2, 1,3, 5,9]` (`output_variance = 1`). -/
theorem claim_C3_telescoping_witness :
    ((deltas ⟨2,2,2,1,2⟩ [0,2,1,3,5,9]).getD 0 []).sum
        = outputVariance ⟨2,2,2,1,2⟩ [0,2,1,3,5,9] ∧
    ∑ i ∈ Finset.range 2, shapleyEffect ⟨2,2,2,1,2⟩ [[0,1],[1,0]] [0,2,1,3,5,9] i = 1 := by
  have h := claim_C3_telescoping ⟨2,2,2,1,2⟩ [[0,1],[1,0]] [0,2,1,3,5,9]
    (by decide) (by decide) (by decide)
    (by norm_num [outputVariance, npVar, npMean])
  exact ⟨h.1 0 (by decide), h.2⟩

/-- The code's `estimated_cost` (mean of per-block `ddof=1` variances of the
sequentially stripped blocks) as an indexed sum over block offsets. -/
lemma blockCost_eq_sum (n_outer n_inner : ℕ) (rem : List ℚ) :
    blockCost n_outer n_inner rem
      = (∑ l ∈ Finset.range n_outer,
          npVarDdof1 ((rem.drop (l * n_inner)).take n_inner)) / n_outer := by
  unfold blockCost npMean
  have hlen : ((stripBlocks n_inner n_outer rem).1.map npVarDdof1).length = n_outer := by
    rw [List.length_map, stripBlocks_fst_length]
  congr 1
  · rw [← sum_getD_range, hlen]
    apply Finset.sum_congr rfl
    intro l hl
    have hl' : l < n_outer := Finset.mem_range.mp hl
    have hbl : l < (stripBlocks n_inner n_outer rem).1.length := by
      rw [stripBlocks_fst_length]; exact hl'
    have hml : l < ((stripBlocks n_inner n_outer rem).1.map npVarDdof1).length := by
      rw [hlen]; exact hl'
    rw [List.getD_eq_getElem _ 0 hml, List.getElem_map,
      ← List.getD_eq_getElem _ ([] : List ℚ) hbl,
      stripBlocks_fst_getD n_inner n_outer rem l hl']
  · rw [hlen]

/-- Composing the reader's sequential drops reaches exactly the design
builder's write offset for `(p, j+1, l)`. -/
lemma reader_drop_eq_writtenBlock (a : Args) (ys : List ℚ) (p j l : ℕ) :
    (((((ys.drop a.n_output).drop
          (p * ((a.n_inputs - 1) * (a.n_outer * a.n_inner)))).drop
            (j * (a.n_outer * a.n_inner))).drop (l * a.n_inner)).take a.n_inner)
      = writtenBlock a ys p (j + 1) l := by
  unfold writtenBlock innerIndex
  rw [List.drop_drop, List.drop_drop, List.drop_drop]
  congr 2
  simp only [Nat.add_sub_cancel]
  ring

/-- Claim C2: Lock-step consumption: the sequential reader (stripping `n_inner`
values at a time, lines 154-156) computes, at permutation `p` and estimator
split `j < n_inputs - 1`, its cost from exactly the model outputs of the
design rows written for builder split `j + 1` of permutation `p` at offset
`innerIndex p (j+1) l` — so every delta equals the difference of `lockstepCost`
values taken over written blocks; after the loop over all permutations exactly
`designRows` output values have been passed over, so an output vector of the
design's length is consumed with nothing left over. -/
theorem claim_C2_lockstep_consumption (a : Args) (ys : List ℚ) :
    (∀ p j, p < a.n_perms → j < a.n_inputs →
      ((deltas a ys).getD p []).getD j 0
        = lockstepCost a ys p j
          - (if j = 0 then 0 else lockstepCost a ys p (j - 1))) ∧
    (estimationPass a ys).2
        = ys.drop (designRows a.n_perms a.n_inputs a.n_output a.n_outer a.n_inner) ∧
    (ys.length = designRows a.n_perms a.n_inputs a.n_output a.n_outer a.n_inner →
      (estimationPass a ys).2 = []) := by
  have hsnd : (estimationPass a ys).2
      = ys.drop (designRows a.n_perms a.n_inputs a.n_output a.n_outer a.n_inner) := by
    show (permDeltas (outputVariance a ys) a.n_inputs a.n_outer a.n_inner a.n_perms
      (ys.drop a.n_output)).2 = _
    rw [permDeltas_snd, List.drop_drop]
    congr 1
    unfold designRows
    ring
  refine ⟨?_, hsnd, ?_⟩
  · intro p j hp hj
    show ((permDeltas (outputVariance a ys) a.n_inputs a.n_outer a.n_inner a.n_perms
      (ys.drop a.n_output)).1.getD p []).getD j 0 = _
    rw [permDeltas_getD _ _ _ _ a.n_perms p _ hp, List.range_eq_range']
    set remp := (ys.drop a.n_output).drop
      (p * ((a.n_inputs - 1) * (a.n_outer * a.n_inner))) with hremp
    rw [(splitSteps_range' (outputVariance a ys) a.n_inputs a.n_outer a.n_inner
      a.n_inputs 0 (by omega) 0 remp).2 j hj]
    have hconv : ∀ j', stepCost (outputVariance a ys) a.n_inputs a.n_outer
        a.n_inner remp 0 j' = lockstepCost a ys p j' := by
      intro j'
      unfold stepCost lockstepCost
      simp only [Nat.zero_add]
      by_cases hc : j' = a.n_inputs - 1
      · rw [if_pos hc, if_pos hc]
      · rw [if_neg hc, if_neg hc, blockCost_eq_sum]
        congr 1
        apply Finset.sum_congr rfl
        intro l _
        congr 1
        rw [← reader_drop_eq_writtenBlock a ys p j' l]
    simp only [hconv]
  · intro hlen
    rw [hsnd, ← hlen]
    exact List.drop_eq_nil_of_le le_rfl

/-- Witness for C2 with `n_perms = 2`, `n_inputs = 2`, `n_output = 2`,
`n_outer = 1`, `n_inner = 2` and the 6-value output vector `[0,2,1,3,5,9]`
(the design has exactly 6 rows): the delta at `(p,j) = (1,0)` and full
consumption. -/
theorem claim_C2_lockstep_consumption_witness :
    ((deltas ⟨2,2,2,1,2⟩ [0,2,1,3,5,9]).getD 1 []).getD 0 0
        = lockstepCost ⟨2,2,2,1,2⟩ [0,2,1,3,5,9] 1 0
          - (if (0 : ℕ) = 0 then 0
             else lockstepCost ⟨2,2,2,1,2⟩ [0,2,1,3,5,9] 1 (0 - 1)) ∧
    (estimationPass ⟨2,2,2,1,2⟩ [0,2,1,3,5,9]).2 = [] := by
  have h := claim_C2_lockstep_consumption ⟨2,2,2,1,2⟩ [0,2,1,3,5,9]
  exact ⟨h.1 1 0 (by decide) (by decide), h.2.2 (by decide)⟩

/-- Claim C5: The estimator's variance asymmetry: `output_variance` is the
population variance (denominator `n_output`) of the first `n_output` output
values (line 137); each non-final split's `estimated_cost` is the mean over
`n_outer` blocks of the Bessel-corrected variance (denominator `n_inner - 1`)
of each consumed block of `n_inner` values (lines 154-158); and at the final
split `j = n_inputs - 1` the cost is `output_variance` itself with no block
consumed (lines 149-151). -/
theorem claim_C5_variance_estimators (a : Args) (ys : List ℚ) :
    (a.n_output ≤ ys.length →
      outputVariance a ys
        = ((ys.take a.n_output).map
            (fun y => (y - (ys.take a.n_output).sum / a.n_output) ^ 2)).sum
          / a.n_output) ∧
    (∀ xs : List ℚ, xs.length = a.n_inner →
      npVarDdof1 xs
        = (xs.map (fun y => (y - xs.sum / a.n_inner) ^ 2)).sum
          / ((a.n_inner : ℚ) - 1)) ∧
    (∀ (j : ℕ) (js : List ℕ) (prev : ℚ) (rem : List ℚ), j ≠ a.n_inputs - 1 →
      (splitSteps (outputVariance a ys) a.n_inputs a.n_outer a.n_inner
          (j :: js) prev rem).1.getD 0 0 + prev
        = (∑ l ∈ Finset.range a.n_outer,
            npVarDdof1 ((rem.drop (l * a.n_inner)).take a.n_inner)) / a.n_outer) ∧
    (∀ (prev : ℚ) (rem : List ℚ),
      splitSteps (outputVariance a ys) a.n_inputs a.n_outer a.n_inner
          [a.n_inputs - 1] prev rem
        = ([outputVariance a ys - prev], rem)) := by
  refine ⟨?_, ?_, ?_, ?_⟩
  · intro h
    unfold outputVariance npVar npMean
    rw [List.length_take, min_eq_left h]
  · intro xs hxs
    unfold npVarDdof1 npMean
    rw [hxs]
  · intro j js prev rem hne
    rw [splitSteps_cons_nonfinal _ _ _ _ _ _ _ _ hne, List.getD_cons_zero,
      blockCost_eq_sum]
    ring
  · intro prev rem
    rw [splitSteps_cons_final _ _ _ _ _ _ _ _ rfl]
    rfl

/-- Witness for C5 with `n_output = 2`, `n_inner = 2`, `n_inputs = 2`,
`n_outer = 1` on the output vector `[0,2,1,3,5,9]`. -/
theorem claim_C5_variance_estimators_witness :
    (outputVariance ⟨2,2,2,1,2⟩ [0,2,1,3,5,9]
      = ((([0,2,1,3,5,9] : List ℚ).take 2).map
          (fun y => (y - (([0,2,1,3,5,9] : List ℚ).take 2).sum / ((2 : ℕ) : ℚ)) ^ 2)).sum
        / ((2 : ℕ) : ℚ)) ∧
    (npVarDdof1 [1,3]
      = (([1,3] : List ℚ).map
          (fun y => (y - ([1,3] : List ℚ).sum / ((2 : ℕ) : ℚ)) ^ 2)).sum
        / (((2 : ℕ) : ℚ) - 1)) ∧
    ((splitSteps (outputVariance ⟨2,2,2,1,2⟩ [0,2,1,3,5,9]) 2 1 2
        (0 :: [1]) 0 [1,3]).1.getD 0 0 + 0
      = (∑ l ∈ Finset.range 1,
          npVarDdof1 ((([1,3] : List ℚ).drop (l * 2)).take 2)) / ((1 : ℕ) : ℚ)) ∧
    (splitSteps (outputVariance ⟨2,2,2,1,2⟩ [0,2,1,3,5,9]) 2 1 2 [1] 5 [2]
      = ([outputVariance ⟨2,2,2,1,2⟩ [0,2,1,3,5,9] - 5], [2])) := by
  have h := claim_C5_variance_estimators ⟨2,2,2,1,2⟩ [0,2,1,3,5,9]
  exact ⟨h.1 (by decide), h.2.1 [1,3] (by decide),
    h.2.2.1 0 [1] 0 [1,3] (by decide), h.2.2.2 5 [2]⟩

/-! Section: Standard error (C6) -/

/-- Within one permutation the scatter condition `perms[j] = i` holds for at
most one split `j`, so the scattered delta's square bounds the square of the
scattered delta sum. -/
lemma scatter_sq_le (n : ℕ) (perm : List ℕ) (hlen : perm.length = n)
    (hnd : perm.Nodup) (d : ℕ → ℚ) (i : ℕ) :
    (∑ j ∈ Finset.range n, if perm.getD j 0 = i then d j else 0) ^ 2
      ≤ ∑ j ∈ Finset.range n, if perm.getD j 0 = i then d j ^ 2 else 0 := by
  classical
  set S := (Finset.range n).filter (fun j => perm.getD j 0 = i) with hS
  have h1 : (∑ j ∈ Finset.range n, if perm.getD j 0 = i then d j else 0)
      = ∑ j ∈ S, d j := (Finset.sum_filter _ _).symm
  have h2 : (∑ j ∈ Finset.range n, if perm.getD j 0 = i then d j ^ 2 else 0)
      = ∑ j ∈ S, d j ^ 2 := (Finset.sum_filter _ _).symm
  have huniq : ∀ x ∈ S, ∀ y ∈ S, x = y := by
    intro x hx y hy
    obtain ⟨hxr, hxv⟩ := Finset.mem_filter.mp hx
    obtain ⟨hyr, hyv⟩ := Finset.mem_filter.mp hy
    have hxn : x < perm.length := by rw [hlen]; exact Finset.mem_range.mp hxr
    have hyn : y < perm.length := by rw [hlen]; exact Finset.mem_range.mp hyr
    rcases Nat.lt_trichotomy x y with hlt | heq | hgt
    · exfalso
      have := List.pairwise_iff_getElem.mp hnd x y hxn hyn hlt
      rw [← List.getD_eq_getElem _ 0 hxn, ← List.getD_eq_getElem _ 0 hyn] at this
      exact this (hxv.trans hyv.symm)
    · exact heq
    · exfalso
      have := List.pairwise_iff_getElem.mp hnd y x hyn hxn hgt
      rw [← List.getD_eq_getElem _ 0 hyn, ← List.getD_eq_getElem _ 0 hxn] at this
      exact this (hyv.trans hxv.symm)
  rw [h1, h2]
  rcases S.eq_empty_or_nonempty with hemp | ⟨j₀, hj₀⟩
  · simp [hemp]
  · have hsing : S = {j₀} :=
      Finset.eq_singleton_iff_unique_mem.mpr ⟨hj₀, fun y hy => huniq y hy j₀ hj₀⟩
    rw [hsing, Finset.sum_singleton, Finset.sum_singleton]

/-- Cauchy-Schwarz for the accumulators: the squared delta sum is at most
`n_perms` times the accumulated squared deltas, provided every permutation in
the list is a true permutation of `0..n_inputs-1`. -/
lemma accum_sq_bound (perms : List (List ℕ)) (dss : List (List ℚ))
    (P n i : ℕ)
    (hperm : ∀ p, p < P → (perms.getD p []).Perm (List.range n)) :
    accumDeltas perms dss P n i ^ 2 ≤ (P : ℚ) * accumSqDeltas perms dss P n i := by
  unfold accumDeltas accumSqDeltas
  set f : ℕ → ℚ := fun p => ∑ j ∈ Finset.range n,
    if (perms.getD p []).getD j 0 = i then (dss.getD p []).getD j 0 else 0 with hf
  set g : ℕ → ℚ := fun p => ∑ j ∈ Finset.range n,
    if (perms.getD p []).getD j 0 = i then ((dss.getD p []).getD j 0) ^ 2 else 0 with hg
  have hfg : ∀ p ∈ Finset.range P, f p ^ 2 ≤ g p := by
    intro p hp
    have hp' := Finset.mem_range.mp hp
    have hplen : (perms.getD p []).length = n := by
      simpa using (hperm p hp').length_eq
    have hpnd : (perms.getD p []).Nodup :=
      (hperm p hp').nodup_iff.mpr (List.nodup_range n)
    exact scatter_sq_le n (perms.getD p []) hplen hpnd _ i
  have hcs := Finset.sum_mul_sq_le_sq_mul_sq (Finset.range P) f (fun _ => 1)
  simp only [mul_one, one_pow, Finset.sum_const, Finset.card_range,
    nsmul_eq_mul] at hcs
  have h2 : ∑ p ∈ Finset.range P, f p ^ 2 ≤ ∑ p ∈ Finset.range P, g p :=
    Finset.sum_le_sum hfg
  calc (∑ p ∈ Finset.range P, f p) ^ 2
      ≤ (∑ p ∈ Finset.range P, f p ^ 2) * (P : ℚ) := hcs
    _ ≤ (∑ p ∈ Finset.range P, g p) * (P : ℚ) :=
        mul_le_mul_of_nonneg_right h2 (Nat.cast_nonneg P)
    _ = (P : ℚ) * ∑ p ∈ Finset.range P, g p := by ring

/-- In exact arithmetic the operand of the square root at line 168 is never
negative: the scattered squared-delta mean dominates the squared effect. -/
lemma se_operand_nonneg (a : Args) (perms : List (List ℕ)) (ys : List ℚ)
    (hperm : ∀ p, p < a.n_perms → (perms.getD p []).Perm (List.range a.n_inputs))
    (i : ℕ) :
    0 ≤ shapleyEffectSquared a perms ys i - shapleyEffect a perms ys i ^ 2 := by
  unfold shapleyEffect shapleyEffectSquared
  set A := accumDeltas perms (deltas a ys) a.n_perms a.n_inputs i with hA
  set B := accumSqDeltas perms (deltas a ys) a.n_perms a.n_inputs i with hB
  set v := outputVariance a ys with hv
  by_cases hv0 : v = 0
  · simp [hv0]
  by_cases hP0 : (a.n_perms : ℚ) = 0
  · simp [hP0]
  · have key : A ^ 2 ≤ (a.n_perms : ℚ) * B :=
      accum_sq_bound perms (deltas a ys) a.n_perms a.n_inputs i hperm
    have heq : B / (a.n_perms : ℚ) / v ^ 2 - (A / (a.n_perms : ℚ) / v) ^ 2
        = ((a.n_perms : ℚ) * B - A ^ 2) / (((a.n_perms : ℚ)) ^ 2 * v ^ 2) := by
      field_simp
      ring
    rw [heq]
    apply div_nonneg (by linarith)
    positivity

/-- Claim C6: Lines 166-168: the Shapley effect is the accumulated delta sum
over `n_perms * output_variance`, the squared mean is the accumulated squared
deltas over `n_perms * output_variance**2`, and the standard error is
`sqrt((squared_mean - effect^2) / n_perms)`; in exact arithmetic the operand
is provably non-negative, so the standard error coincides with the clamped
form `sqrt(max(squared_mean - effect^2, 0) / n_perms)` and is a well-defined
non-negative real. -/
theorem claim_C6_standard_error (a : Args) (perms : List (List ℕ))
    (ys : List ℚ)
    (hperm : ∀ p, p < a.n_perms → (perms.getD p []).Perm (List.range a.n_inputs))
    (i : ℕ) :
    standardError a perms ys i
      = Real.sqrt ((max (shapleyEffectSquared a perms ys i
          - shapleyEffect a perms ys i ^ 2) 0 / a.n_perms : ℚ))
    ∧ 0 ≤ standardError a perms ys i := by
  have hnn := se_operand_nonneg a perms ys hperm i
  constructor
  · unfold standardError
    rw [max_eq_left hnn]
  · exact Real.sqrt_nonneg _

/-- Witness for C6 at the concrete run of the C3 example, input index 0. -/
theorem claim_C6_standard_error_witness :
    standardError ⟨2,2,2,1,2⟩ [[0,1],[1,0]] [0,2,1,3,5,9] 0
      = Real.sqrt ((max (shapleyEffectSquared ⟨2,2,2,1,2⟩ [[0,1],[1,0]] [0,2,1,3,5,9] 0
          - shapleyEffect ⟨2,2,2,1,2⟩ [[0,1],[1,0]] [0,2,1,3,5,9] 0 ^ 2) 0
            / ((2 : ℕ) : ℚ) : ℚ))
    ∧ 0 ≤ standardError ⟨2,2,2,1,2⟩ [[0,1],[1,0]] [0,2,1,3,5,9] 0 :=
  claim_C6_standard_error ⟨2,2,2,1,2⟩ [[0,1],[1,0]] [0,2,1,3,5,9] (by decide) 0

/-! Section: Result table (C9) and division safety (C10) -/

/-- Claim C9: Lines 172-181: the returned per-input row is exactly
`(effect, std. error, effect - 1.96*se, effect + 1.96*se)` — the 95% normal
approximation with the hard-coded constant 1.96, no other level — and the
table is keyed by labels `X1..Xn`, label `X(k+1)` for original input index
`k`. -/
theorem claim_C9_result_table (a : Args) (perms : List (List ℕ)) (ys : List ℚ) :
    (∀ i,
      (resultRow a perms ys i).1 = (shapleyEffect a perms ys i : ℝ) ∧
      (resultRow a perms ys i).2.1 = standardError a perms ys i ∧
      (resultRow a perms ys i).2.2.1
          = (shapleyEffect a perms ys i : ℝ) - 1.96 * standardError a perms ys i ∧
      (resultRow a perms ys i).2.2.2
          = (shapleyEffect a perms ys i : ℝ) + 1.96 * standardError a perms ys i) ∧
    (inputLabels a.n_inputs).length = a.n_inputs ∧
    (∀ k, k < a.n_inputs →
      (inputLabels a.n_inputs).getD k "" = "X" ++ toString (k + 1)) := by
  refine ⟨fun i => ⟨rfl, rfl, rfl, rfl⟩, ?_, ?_⟩
  · unfold inputLabels
    rw [List.length_map, List.length_range]
  · intro k hk
    unfold inputLabels
    have hk' : k < ((List.range a.n_inputs).map
        (fun i => "X" ++ toString (i + 1))).length := by
      rw [List.length_map, List.length_range]
      exact hk
    rw [List.getD_eq_getElem _ _ hk', List.getElem_map, List.getElem_range]

/-- Witness for C9 at `n_inputs = 2`, input index 0 and label index 1. -/
theorem claim_C9_result_table_witness :
    (resultRow ⟨2,2,2,1,2⟩ [[0,1],[1,0]] [0,2,1,3,5,9] 0).2.2.1
        = (shapleyEffect ⟨2,2,2,1,2⟩ [[0,1],[1,0]] [0,2,1,3,5,9] 0 : ℝ)
          - 1.96 * standardError ⟨2,2,2,1,2⟩ [[0,1],[1,0]] [0,2,1,3,5,9] 0 ∧
    (inputLabels 2).getD 1 "" = "X" ++ toString (1 + 1) := by
  exact ⟨((claim_C9_result_table ⟨2,2,2,1,2⟩ [[0,1],[1,0]] [0,2,1,3,5,9]).1 0).2.2.1,
    (claim_C9_result_table ⟨2,2,2,1,2⟩ [[0,1],[1,0]] [0,2,1,3,5,9]).2.2 1 (by decide)⟩

/-- Claim C10, counterexample: The claim states that (for `n_inputs ≥ 2`) the
estimation phase is free of division by zero if and only if `n_inner ≥ 2` and
the output variance is nonzero.  At `n_perms = 0`, `n_outer = 0` (with
`n_inputs = 2`, `n_inner = 2` and output variance 1) the right-hand side
holds but the code still divides by `n_outer = 0` (in
`np.mean(conditional_variance)`) and by `n_perms = 0` (final normalization),
so the equivalence fails. -/
theorem claim_C10_counterexample :
    2 ≤ (⟨0,2,2,0,2⟩ : Args).n_inputs ∧
    (2 ≤ (⟨0,2,2,0,2⟩ : Args).n_inner ∧ outputVariance ⟨0,2,2,0,2⟩ [0,2] ≠ 0) ∧
    ¬ estimationDivisorsNonzero ⟨0,2,2,0,2⟩ [0,2] := by
  refine ⟨by decide, ⟨by decide, by norm_num [outputVariance, npVar, npMean]⟩, ?_⟩
  intro h
  exact h.2.2.2.1 (by norm_num)

/-- Claim C10, amended: With the two additional run preconditions `n_perms ≥ 1`
(automatic in exact mode) and `n_outer ≥ 1`, the equivalence holds: every
denominator of the estimation phase is nonzero if and only if `n_inner ≥ 2`
and the population variance of the unconditional output block is nonzero. -/
theorem claim_C10_division_safety (a : Args) (ys : List ℚ)
    (_hni : 2 ≤ a.n_inputs) (hP : 1 ≤ a.n_perms) (hL : 1 ≤ a.n_outer) :
    estimationDivisorsNonzero a ys ↔
      (2 ≤ a.n_inner ∧ outputVariance a ys ≠ 0) := by
  constructor
  · rintro ⟨h1, h2, h3, h4, h5, h6, h7⟩
    refine ⟨?_, h6⟩
    have hne0 : a.n_inner ≠ 0 := by
      intro h
      rw [h] at h2
      simp at h2
    have hne1 : a.n_inner ≠ 1 := by
      intro h
      rw [h] at h3
      norm_num at h3
    omega
  · rintro ⟨hinner, hov⟩
    have hno : a.n_output ≠ 0 := by
      intro h
      apply hov
      unfold outputVariance npVar
      rw [h]
      simp
    refine ⟨Nat.cast_ne_zero.mpr hno, Nat.cast_ne_zero.mpr (by omega), ?_,
      Nat.cast_ne_zero.mpr (by omega), Nat.cast_ne_zero.mpr (by omega),
      hov, pow_ne_zero 2 hov⟩
    intro h
    rw [sub_eq_zero] at h
    have h' : a.n_inner = 1 := by exact_mod_cast h
    omega

/-- Witness for the amended C10 at `n_perms = 1`, `n_inputs = 2`,
`n_output = 2`, `n_outer = 1`, `n_inner = 2`, outputs `[0,2]`. -/
theorem claim_C10_division_safety_witness :
    estimationDivisorsNonzero ⟨1,2,2,1,2⟩ [0,2]
      ↔ (2 ≤ (⟨1,2,2,1,2⟩ : Args).n_inner ∧ outputVariance ⟨1,2,2,1,2⟩ [0,2] ≠ 0) :=
  claim_C10_division_safety ⟨1,2,2,1,2⟩ [0,2] (by decide) (by decide) (by decide)

end Econsa
